import Mathlib

/-!
# Verification of the invoice-maker application (`app.py`)

A shallow embedding of the invoice-maker web application: the free-text item
parser (`parse_items`), the PDF layout loop (`invoice_pdf_bytes`), the money
formatter (`money`), the invoice store (`new_invoice` POST handler), and the
owner bootstrap route (`owner_setup`).

Python strings are modelled as `List Char`; Python `float` money values are
modelled as exact rationals `ℚ` (the spec treats amounts as decimal numbers;
binary floating-point representation error is not modelled).  Fallible code
returns `Except`/`Option`.
-/

set_option allowUnsafeReducibility true
attribute [local semireducible] Rat.mul Rat.inv Rat.add Rat.sub Rat.neg Rat.ofScientific

namespace InvoiceApp

/-- Convert a Lean string literal to the `List Char` representation used
throughout the embedding. -/
def chars (s : String) : List Char := s.data

/-- The whitespace characters recognised by Python's `str.strip()` and by the
regex class `\s` (restricted to ASCII, which is all the app handles). -/
def isPySpace (c : Char) : Bool :=
  c = ' ' || c = '\t' || c = '\n' || c = '\r' || c = '\x0b' || c = '\x0c'

/-- `str.strip(chars)` generalised over a character predicate: drop matching
characters from both ends. -/
def pyStripGen (p : Char → Bool) (l : List Char) : List Char :=
  (((l.dropWhile p).reverse).dropWhile p).reverse

/-- Python `str.strip()` (no argument): strip whitespace from both ends. -/
def pyStrip (l : List Char) : List Char := pyStripGen isPySpace l

/-- Python `str.strip(cs)`: strip any of the characters in `cs` from both
ends.  Used for `.strip(" -:|")` in `parse_items`. -/
def pyStripSet (cs : List Char) (l : List Char) : List Char :=
  pyStripGen (fun c => cs.contains c) l

/-- Python `str.splitlines()` for the line boundaries `\n`, `\r`, `\r\n`
(the only ones producible by the app's HTML form input). -/
def splitlinesGo (cur : List Char) : List Char → List (List Char)
  | [] => [cur.reverse]
  | '\r' :: '\n' :: rest =>
      cur.reverse :: (if rest.isEmpty then [] else splitlinesGo [] rest)
  | '\r' :: rest =>
      cur.reverse :: (if rest.isEmpty then [] else splitlinesGo [] rest)
  | '\n' :: rest =>
      cur.reverse :: (if rest.isEmpty then [] else splitlinesGo [] rest)
  | c :: rest => splitlinesGo (c :: cur) rest

/-- Python `str.splitlines()`: `""` yields no lines; a trailing line break
does not produce an extra empty line. -/
def splitlines (s : List Char) : List (List Char) :=
  if s.isEmpty then [] else splitlinesGo [] s

/-- Take one leading character satisfying `p`, if present (models an optional
single-character regex atom such as `[-+]?` or `\$?`). -/
def takeOpt (p : Char → Bool) : List Char → List Char × List Char
  | [] => ([], [])
  | c :: rest => if p c then ([c], rest) else ([], c :: rest)

/-- Characters accepted by the regex class `[-+]`. -/
def isSign (c : Char) : Bool := c = '-' || c = '+'

/-- Characters accepted by the regex class `[\d,]`. -/
def isDigitComma (c : Char) : Bool := c.isDigit || c = ','

/-- Attempt to match the regex `[-+]?\$?\s*\d[\d,]*\.?\d*` anchored at the
start of `s`.  The pattern has only greedy quantifiers and no alternation, so
the Python regex engine's match at a given position is the deterministic
greedy one computed here; returns the matched prefix and the remainder. -/
def matchNumAt (s : List Char) : Option (List Char × List Char) :=
  let p1 := takeOpt isSign s
  let p2 := takeOpt (fun c => c = '$') p1.2
  let ws := p2.2.takeWhile isPySpace
  match p2.2.dropWhile isPySpace with
  | [] => none
  | c :: s4 =>
    if c.isDigit then
      let ds := s4.takeWhile isDigitComma
      let s5 := s4.dropWhile isDigitComma
      let p3 := takeOpt (fun c => c = '.') s5
      let fs := p3.2.takeWhile Char.isDigit
      let s7 := p3.2.dropWhile Char.isDigit
      some (p1.1 ++ p2.1 ++ ws ++ c :: ds ++ p3.1 ++ fs, s7)
    else none

theorem takeOpt_append (p : Char → Bool) (l : List Char) :
    (takeOpt p l).1 ++ (takeOpt p l).2 = l := by
  cases l with
  | nil => rfl
  | cons c rest =>
    simp only [takeOpt]
    split <;> simp

theorem matchNumAt_append {s m r : List Char} (h : matchNumAt s = some (m, r)) :
    m ++ r = s := by
  unfold matchNumAt at h
  dsimp only at h
  split at h
  · exact absurd h (by simp)
  next c s4 hd =>
    split at h
    next hc =>
      injection h with h'
      injection h' with hm hr
      subst hm; subst hr
      simp only [List.append_assoc, List.cons_append]
      rw [List.takeWhile_append_dropWhile, takeOpt_append]
      have e4 : s4.takeWhile isDigitComma ++ s4.dropWhile isDigitComma = s4 :=
        List.takeWhile_append_dropWhile _ _
      rw [e4]
      have : (takeOpt (fun c => c = '$') (takeOpt isSign s).2).2.takeWhile isPySpace
          ++ (c :: s4)
          = (takeOpt (fun c => c = '$') (takeOpt isSign s).2).2 := by
        rw [← hd, List.takeWhile_append_dropWhile]
      rw [this, takeOpt_append, takeOpt_append]
    next hc => exact absurd h (by simp)

theorem matchNumAt_ne_nil {s m r : List Char} (h : matchNumAt s = some (m, r)) :
    m ≠ [] := by
  unfold matchNumAt at h
  dsimp only at h
  split at h
  · exact absurd h (by simp)
  next c s4 hd =>
    split at h
    next hc =>
      injection h with h'
      injection h' with hm _
      subst hm
      simp
    next hc => exact absurd h (by simp)

theorem matchNumAt_length {s m r : List Char} (h : matchNumAt s = some (m, r)) :
    r.length < s.length := by
  have happ := matchNumAt_append h
  have hne := matchNumAt_ne_nil h
  have : m.length + r.length = s.length := by
    rw [← happ, List.length_append]
  have hm : 0 < m.length := List.length_pos.mpr hne
  omega

/-- Bounded-fuel worker for `findallNums` (structural recursion so that the
kernel can evaluate it; `s.length` fuel always suffices, see
`findallNumsFuel_irrel`). -/
def findallNumsFuel : ℕ → List Char → List (List Char)
  | 0, _ => []
  | fuel + 1, s =>
    match matchNumAt s with
    | some (m, r) => m :: findallNumsFuel fuel r
    | none =>
      match s with
      | [] => []
      | _ :: rest => findallNumsFuel fuel rest

/-- `re.findall(r"[-+]?\$?\s*\d[\d,]*\.?\d*", s)`: scan left to right, taking
non-overlapping matches; on failure at a position, advance one character. -/
def findallNums (s : List Char) : List (List Char) :=
  findallNumsFuel s.length s

theorem findallNumsFuel_irrel : ∀ fuel s, List.length s ≤ fuel →
    findallNumsFuel fuel s = findallNumsFuel s.length s := by
  intro fuel
  induction fuel using Nat.strong_induction_on with
  | _ fuel ih =>
    intro s h
    cases fuel with
    | zero =>
      have hs : s = [] := List.length_eq_zero.mp (Nat.le_zero.mp h)
      subst hs; rfl
    | succ n =>
      cases s with
      | nil => rfl
      | cons c rest =>
        cases hm : matchNumAt (c :: rest) with
        | some p =>
          obtain ⟨m, r⟩ := p
          have hr : r.length < (c :: rest).length := matchNumAt_length hm
          simp only [List.length_cons] at h hr ⊢
          simp only [findallNumsFuel, hm]
          congr 1
          rw [ih n (by omega) r (by omega), ih rest.length (by omega) r (by omega)]
        | none =>
          simp only [List.length_cons] at h ⊢
          simp only [findallNumsFuel, hm]
          rw [ih n (by omega) rest (by omega), ih rest.length (by omega) rest (le_refl _)]

/-- The defining recursion of `findallNums`, independent of the fuel. -/
theorem findallNums_eq (s : List Char) :
    findallNums s =
      match matchNumAt s with
      | some (m, r) => m :: findallNums r
      | none =>
        match s with
        | [] => []
        | _ :: rest => findallNums rest := by
  unfold findallNums
  cases s with
  | nil => rfl
  | cons c rest =>
    cases hm : matchNumAt (c :: rest) with
    | some p =>
      obtain ⟨m, r⟩ := p
      have hr := matchNumAt_length hm
      simp only [List.length_cons] at hr ⊢
      simp only [findallNumsFuel, hm]
      congr 1
      exact findallNumsFuel_irrel rest.length r (by omega)
    | none =>
      simp only [List.length_cons, findallNumsFuel, hm]

/-- The digit string value (used for both the integer and the fractional part
of a parsed number). -/
def digitsVal (l : List Char) : ℕ :=
  l.foldl (fun a c => a * 10 + (c.toNat - 48)) 0

/-- The unsigned part of Python `float(str)`: `digits+ ['.' digits*]` or
`'.' digits+` (exponents, `inf`, `nan` and digit underscores are accepted by
Python but unreachable from the strings this app feeds to `float`). -/
def parseUnsigned? (l : List Char) : Option ℚ :=
  let ip := l.takeWhile Char.isDigit
  match l.dropWhile Char.isDigit with
  | [] => if ip.isEmpty then none else some (digitsVal ip)
  | '.' :: fp =>
      if fp.all Char.isDigit && (!ip.isEmpty || !fp.isEmpty) then
        some ((digitsVal ip : ℚ) + (digitsVal fp : ℚ) / (10 : ℚ) ^ fp.length)
      else none
  | _ => none

/-- Python `float(str)` on the strings reachable in this app: strip
whitespace, optional sign, then an unsigned decimal number.  Internal
whitespace (e.g. `"- 5"`) is a `ValueError`, modelled as `none`. -/
def pyFloat? (s : List Char) : Option ℚ :=
  let t := pyStrip s
  let sg := takeOpt isSign t
  match parseUnsigned? sg.2 with
  | some v => some (if sg.1 = ['-'] then -v else v)
  | none => none

/-- `last.replace("$", "").replace(",", "").strip()` from `parse_items`. -/
def cleanNum (l : List Char) : List Char :=
  pyStrip ((l.filter (fun c => c ≠ '$')).filter (fun c => c ≠ ','))

/-- Is `sub` a prefix of `s.drop i` — i.e. does `sub` occur in `s` at index
`i`? -/
def occursAt (s sub : List Char) (i : ℕ) : Bool :=
  sub.isPrefixOf (s.drop i)

/-- Helper for `pyRfind`: the greatest `i ≤ k` with `occursAt s sub i`. -/
def pyRfindAux (s sub : List Char) : ℕ → Option ℕ
  | 0 => if occursAt s sub 0 then some 0 else none
  | k + 1 => if occursAt s sub (k + 1) then some (k + 1) else pyRfindAux s sub k

/-- Python `str.rfind(sub)`: the highest index at which `sub` occurs, `-1` if
it does not occur. -/
def pyRfind (s sub : List Char) : Int :=
  match pyRfindAux s sub s.length with
  | some i => (i : Int)
  | none => -1

/-- Clamp a Python slice index (which may be negative, counting from the end)
into `[0, n]`, as Python slicing does. -/
def pyIdxClamp (n : ℕ) (i : Int) : ℕ :=
  if i < 0 then ((n : Int) + i).toNat else min i.toNat n

/-- One parsed invoice item: `{"desc": ..., "qty": 1, "unit_price": ...}`. -/
structure Item where
  desc : List Char
  qty : ℚ
  unit_price : ℚ
deriving Repr, DecidableEq

/-- The per-line body of `parse_items` (called on an already-stripped,
non-blank line): take the LAST regex match as the price, clean and
`float`-parse it (defaulting to `0.0`), remove the match at its `rfind`
position, trim `" -:|"`, and fall back to the whole line when that leaves an
empty description. -/
def parseLine (line : List Char) : Item :=
  match (findallNums line).getLast? with
  | none => ⟨line, 1, 0⟩
  | some last =>
    let cleaned := cleanNum last
    let unit_price := (pyFloat? cleaned).getD 0
    let idx := pyRfind line last
    let n := line.length
    let desc0 := pyStripSet (chars " -:|")
      (line.take (pyIdxClamp n idx) ++ line.drop (pyIdxClamp n (idx + (last.length : Int))))
    let desc := if desc0.isEmpty then line else desc0
    ⟨desc, 1, unit_price⟩

/-- The loop of `parse_items`: strip each line, skip blank lines, parse the
rest in order. -/
def parseLoop : List (List Char) → List Item
  | [] => []
  | l :: rest =>
    let line := pyStrip l
    if line.isEmpty then parseLoop rest else parseLine line :: parseLoop rest

/-- Decidable equality for `Except` results (not provided by core). -/
instance instDecEqExcept {ε α : Type} [DecidableEq ε] [DecidableEq α] :
    DecidableEq (Except ε α) := fun a b =>
  match a, b with
  | .error x, .error y =>
    if h : x = y then .isTrue (congrArg Except.error h)
    else .isFalse (fun hc => h (Except.error.inj hc))
  | .ok x, .ok y =>
    if h : x = y then .isTrue (congrArg Except.ok h)
    else .isFalse (fun hc => h (Except.ok.inj hc))
  | .error _, .ok _ => .isFalse (fun hc => Except.noConfusion hc)
  | .ok _, .error _ => .isFalse (fun hc => Except.noConfusion hc)

/-- `parse_items(raw)`: split into lines, parse each non-blank line, and
raise `ValueError("Add at least 1 item line.")` when no items result. -/
def parse_items (raw : List Char) : Except (List Char) (List Item) :=
  let items := parseLoop (splitlines raw)
  if items.isEmpty then Except.error (chars "Add at least 1 item line.")
  else Except.ok items

/-! ## Money formatting (`invoice_pdf_bytes.money`) -/

/-- Floor of a rational number, as an integer (`Int.fdiv` is floor
division and `q.den > 0`). -/
def ratFloor (q : ℚ) : ℤ := Int.fdiv q.num (q.den : ℤ)

/-- Round a rational to the nearest integer, ties to even — the rounding used
by Python's fixed-point `format` on the exact decimal values that arise
here. -/
def roundHalfEven (q : ℚ) : ℤ :=
  let f : ℤ := ratFloor q
  let r : ℚ := q - (f : ℚ)
  if r < 1/2 then f
  else if 1/2 < r then f + 1
  else if f % 2 = 0 then f else f + 1

/-- The character for a single decimal digit `d < 10`. -/
def digitChar (d : ℕ) : Char := Char.ofNat (48 + d)

/-- Bounded-fuel worker for `natDigitsRev` (structural recursion so the
kernel can evaluate it; `n` fuel always suffices). -/
def natDigitsRevFuel : ℕ → ℕ → List Char
  | 0, _ => []
  | fuel + 1, n =>
    if n = 0 then [] else digitChar (n % 10) :: natDigitsRevFuel fuel (n / 10)

/-- The decimal digits of `n`, least significant first (`[]` for `0`). -/
def natDigitsRev (n : ℕ) : List Char := natDigitsRevFuel n n

theorem natDigitsRevFuel_irrel : ∀ fuel n, n ≤ fuel →
    natDigitsRevFuel fuel n = natDigitsRevFuel n n := by
  intro fuel
  induction fuel using Nat.strong_induction_on with
  | _ fuel ih =>
    intro n h
    cases fuel with
    | zero =>
      have : n = 0 := Nat.le_zero.mp h
      subst this; rfl
    | succ k =>
      by_cases hn : n = 0
      · subst hn; rfl
      · obtain ⟨m, rfl⟩ := Nat.exists_eq_succ_of_ne_zero hn
        have hdiv : (m + 1) / 10 < m + 1 := Nat.div_lt_self (Nat.succ_pos m) (by norm_num)
        simp only [natDigitsRevFuel, if_neg hn]
        congr 1
        rw [ih k (by omega) ((m + 1) / 10) (by omega),
          ih m (by omega) ((m + 1) / 10) (by omega)]

/-- The defining recursion of `natDigitsRev`, independent of the fuel. -/
theorem natDigitsRev_eq (n : ℕ) :
    natDigitsRev n =
      if n = 0 then [] else digitChar (n % 10) :: natDigitsRev (n / 10) := by
  by_cases hn : n = 0
  · subst hn; rfl
  · obtain ⟨m, rfl⟩ := Nat.exists_eq_succ_of_ne_zero hn
    have hdiv : (m + 1) / 10 < m + 1 := Nat.div_lt_self (Nat.succ_pos m) (by norm_num)
    simp only [natDigitsRev, natDigitsRevFuel, if_neg hn]
    congr 1
    exact natDigitsRevFuel_irrel m ((m + 1) / 10) (by omega)

/-- Insert a `,` after every third character of a least-significant-first
digit string: the reversal of Python's thousands grouping. -/
def groupRev : List Char → List Char
  | a :: b :: c :: d :: rest => a :: b :: c :: ',' :: groupRev (d :: rest)
  | l => l

/-- `format(n, ",d")` on a natural number: decimal digits with a thousands
separator every three digits. -/
def commaGroup (n : ℕ) : List Char :=
  (groupRev (if n = 0 then ['0'] else natDigitsRev n)).reverse

/-- Python `f"{x:,.2f}"` on the exact rational value `x`: sign, thousands
grouped integer part, `'.'`, and exactly two fractional digits (rounding the
value to 2 decimal places). -/
def pyFormatComma2 (x : ℚ) : List Char :=
  let n : ℕ := (roundHalfEven (|x| * 100)).toNat
  let sgn : List Char := if x < 0 then ['-'] else []
  sgn ++ commaGroup (n / 100) ++ ['.', digitChar (n % 100 / 10), digitChar (n % 100 % 10)]

/-- The `money` helper of `invoice_pdf_bytes`:
`f"{sym}{x:,.2f} {currency}".strip()` with `sym = "$"` exactly when the
(already upper-cased) currency is `"USD"`. -/
def money (currency : List Char) (x : ℚ) : List Char :=
  let sym : List Char := if currency = chars "USD" then ['$'] else []
  pyStrip (sym ++ pyFormatComma2 x ++ [' '] ++ currency)

/-! ## Data model and invoice store -/

/-- A stored invoice row (the `invoices` table columns used by the app;
`items_json` is modelled as the structured item list it serialises). -/
structure InvRow where
  invoice_number : List Char
  client_name : List Char
  client_email : List Char
  client_address : List Char
  issue_date : List Char
  due_date : List Char
  currency : List Char
  items : List Item
  payment_methods : List Char
  notes : List Char
  total_amount : ℚ
  created_by_user_id : ℕ
  view_token : List Char
  created_at : List Char
deriving Repr, DecidableEq

/-- `sum(float(i["qty"]) * float(i["unit_price"]) for i in items)`: Python's
`sum` is a left fold starting from `0`. -/
def invoiceTotal (items : List Item) : ℚ :=
  items.foldl (fun acc i => acc + i.qty * i.unit_price) 0

/-- Python `str.upper()` (ASCII). -/
def pyUpper (l : List Char) : List Char := l.map Char.toUpper

/-- The form fields read by the `/new` POST handler. -/
structure NewInvoiceForm where
  invoice_number : List Char
  client_name : List Char
  client_email : List Char
  client_address : List Char
  issue_date : List Char
  due_date : List Char
  currency : List Char
  items_raw : List Char
  payment_methods : List Char
  notes : List Char
deriving Repr, DecidableEq

/-- The possible outcomes of the `/new` POST handler. -/
inductive NewInvOutcome where
  | missingFieldsPage
  | itemsErrorPage (msg : List Char)
  | integrityError
  | redirectCreated (invoice_id : ℕ)
deriving Repr, DecidableEq

/-- The HTTP status Flask assigns to each outcome: returning an HTML page
string yields `200 OK`, `redirect(...)` yields `302`, and an unhandled
database exception yields `500`. -/
def newInvStatus : NewInvOutcome → ℕ
  | .missingFieldsPage => 200
  | .itemsErrorPage _ => 200
  | .integrityError => 500
  | .redirectCreated _ => 302

/-- The `/new` POST handler (`new_invoice`): strip the form fields, default
and upper-case the currency, reject missing required fields, parse the raw
item text, compute the total, and insert the invoice.  The store is the list
of invoice rows (row id = list position); the fresh `view_token` and
`created_at` values are passed in by the caller.  The `UNIQUE` constraint on
`invoices.view_token` (see `init_db`) makes an insert with a duplicate token
fail, which surfaces as an unhandled `IntegrityError`. -/
def new_invoice_post (uid : ℕ) (tok : List Char) (createdAt : List Char)
    (f : NewInvoiceForm) (st : List InvRow) : NewInvOutcome × List InvRow :=
  let invoice_number := pyStrip f.invoice_number
  let client_name := pyStrip f.client_name
  let client_email := pyStrip f.client_email
  let client_address := pyStrip f.client_address
  let issue_date := pyStrip f.issue_date
  let due_date := pyStrip f.due_date
  let currency := pyUpper (if f.currency.isEmpty then chars "USD" else f.currency)
  if invoice_number.isEmpty || client_name.isEmpty || issue_date.isEmpty
      || due_date.isEmpty then
    (.missingFieldsPage, st)
  else
    match parse_items f.items_raw with
    | .error e => (.itemsErrorPage e, st)
    | .ok items =>
      let total := invoiceTotal items
      if st.any (fun inv => inv.view_token = tok) then
        (.integrityError, st)
      else
        let inv : InvRow :=
          ⟨invoice_number, client_name, client_email, client_address,
           issue_date, due_date, currency, items, pyStrip f.payment_methods,
           pyStrip f.notes, total, uid, tok, createdAt⟩
        (.redirectCreated st.length, st ++ [inv])

/-! ## View tokens (`secrets.token_urlsafe`) -/

/-- The URL-safe base64 alphabet character for a 6-bit value. -/
def b64Char (n : ℕ) : Char :=
  if n < 26 then Char.ofNat (65 + n)
  else if n < 52 then Char.ofNat (97 + (n - 26))
  else if n < 62 then Char.ofNat (48 + (n - 52))
  else if n = 62 then '-'
  else '_'

/-- URL-safe base64 without padding, on a byte list. -/
def b64urlEncode : List ℕ → List Char
  | a :: b :: c :: rest =>
    b64Char (a / 4) :: b64Char (a % 4 * 16 + b / 16)
      :: b64Char (b % 16 * 4 + c / 64) :: b64Char (c % 64) :: b64urlEncode rest
  | [a, b] => [b64Char (a / 4), b64Char (a % 4 * 16 + b / 16), b64Char (b % 16 * 4)]
  | [a] => [b64Char (a / 4), b64Char (a % 4 * 16)]
  | [] => []

/-- `secrets.token_urlsafe(n)` = URL-safe base64 (padding stripped) of `n`
random bytes; the randomness source is a parameter of the model, so the
function maps the drawn bytes to the token text. -/
def token_urlsafe (bytes : List ℕ) : List Char := b64urlEncode bytes

/-- Characters allowed in a URL-safe token. -/
def isUrlSafeChar (c : Char) : Bool :=
  c.isAlpha || c.isDigit || c = '-' || c = '_'

/-! ## Owner setup (`/owner-setup`) -/

/-- A stored user row (the columns the owner-setup logic reads). -/
structure User where
  username : List Char
  password_hash : List Char
  role : List Char
deriving Repr, DecidableEq

/-- `SELECT 1 FROM users WHERE role='owner' LIMIT 1` as a Boolean. -/
def any_owner_exists (users : List User) : Bool :=
  users.any (fun u => u.role = chars "owner")

/-- HTTP request methods accepted by the route. -/
inductive Method where
  | GET
  | POST
deriving Repr, DecidableEq

/-- The form fields read by the owner-setup POST handler. -/
structure SetupForm where
  setup_key : List Char
  username : List Char
  password : List Char
  password2 : List Char
deriving Repr, DecidableEq

/-- The possible responses of the `/owner-setup` route. -/
inductive SetupResp where
  | alreadyExists
  | wrongKey
  | badInput
  | redirectLogin
  | setupFormPage
deriving Repr, DecidableEq

/-- The HTTP status Flask assigns to each owner-setup response: page strings
are `200 OK`, `redirect(url_for("login"))` is `302`. -/
def setupStatus : SetupResp → ℕ
  | .redirectLogin => 302
  | _ => 200

/-- The `/owner-setup` route handler: if any owner exists the request
(GET or POST alike) gets the "Owner already exists" page and the store is
untouched; otherwise a POST checks the setup key, then the input policy
(username ≥ 3 after strip, password ≥ 6, confirmation equal), and on
success inserts the owner row.  `hash` abstracts `generate_password_hash`. -/
def owner_setup (setupKeyCfg : List Char) (hash : List Char → List Char)
    (m : Method) (f : SetupForm) (users : List User) : SetupResp × List User :=
  if any_owner_exists users then (.alreadyExists, users)
  else
    match m with
    | .GET => (.setupFormPage, users)
    | .POST =>
      let username := pyStrip f.username
      if f.setup_key ≠ setupKeyCfg then (.wrongKey, users)
      else if username.length < 3 || f.password.length < 6
          || f.password ≠ f.password2 then (.badInput, users)
      else (.redirectLogin, users ++ [⟨username, hash f.password, chars "owner"⟩])

/-- Process a sequence of owner-setup requests in order, collecting the
responses and threading the user store. -/
def owner_setup_run (setupKeyCfg : List Char) (hash : List Char → List Char) :
    List (Method × SetupForm) → List User → List SetupResp × List User
  | [], users => ([], users)
  | (m, f) :: reqs, users =>
    let r := owner_setup setupKeyCfg hash m f users
    let rest := owner_setup_run setupKeyCfg hash reqs r.2
    (r.1 :: rest.1, rest.2)

/-! ## PDF layout engine (`invoice_pdf_bytes`) -/

/-- US Letter page height in points (`letter = (612, 792)`). -/
def pageH : Int := 792

/-- The reserved footer zone constant of `invoice_pdf_bytes`. -/
def FOOTER_SPACE : Int := 160

/-- A drawing event relevant to layout: an item row (description truncated to
80 characters, formatted amount, baseline `y`), the bold total line, or the
footer block (separator rule, brand image, caption and clickable link). -/
inductive PdfEvent where
  | rowItem (desc : List Char) (amount : List Char) (y : Int)
  | totalLine (text : List Char) (y : Int)
  | footer
deriving Repr, DecidableEq

/-- The cursor position after the header and bill-to block: title at
`page_h - 60`, then the fixed decrements of `invoice_pdf_bytes`, one row per
optional email line and per address line, then the table header, rule and
gap. -/
def headerY (inv : InvRow) : Int :=
  let y := pageH - 60 - 26 - 14 - 22 - 14
  let y := if inv.client_email.isEmpty then y else y - 14
  let y := y - 14 * ((splitlines inv.client_address).length : Int)
  y - 24 - 10 - 16

/-- The item loop of `invoice_pdf_bytes`: accumulate the running total;
before drawing each row, if `y < FOOTER_SPACE` finalize the page
(`c.showPage()`) and reset the cursor to the top margin `page_h - 60`; draw
the row at the cursor and move down 14 points.  Returns the finished pages,
the current page, the cursor, and the running total. -/
def pdfItemsLoop (currency : List Char) :
    List Item → Int → List PdfEvent → List (List PdfEvent) → ℚ →
      List (List PdfEvent) × List PdfEvent × Int × ℚ
  | [], y, cur, pages, total => (pages, cur, y, total)
  | it :: rest, y, cur, pages, total =>
    let lineTotal := it.qty * it.unit_price
    if y < FOOTER_SPACE then
      pdfItemsLoop currency rest (pageH - 60 - 14)
        [PdfEvent.rowItem (it.desc.take 80) (money currency lineTotal) (pageH - 60)]
        (pages ++ [cur]) (total + lineTotal)
    else
      pdfItemsLoop currency rest (y - 14)
        (cur ++ [PdfEvent.rowItem (it.desc.take 80) (money currency lineTotal) y])
        pages (total + lineTotal)

/-- `invoice_pdf_bytes(inv, items)` reduced to its layout events: header and
bill-to block fix the initial cursor, the item loop paginates the rows, then
the total line is drawn 8 points below the last row (with no pagination
check), and the footer block is drawn once on the page where content ended.
The result is the document's page list. -/
def invoice_pdf_bytes (inv : InvRow) : List (List PdfEvent) :=
  let currency := pyUpper inv.currency
  let r := pdfItemsLoop currency inv.items (headerY inv) [] [] 0
  r.1 ++ [r.2.1 ++
    [PdfEvent.totalLine (chars "TOTAL: " ++ money currency r.2.2.2) (r.2.2.1 - 8),
     PdfEvent.footer]]

/-! ## Parser characterization -/

/-- The `parse_items` loop is a map over the stripped non-blank lines. -/
theorem parseLoop_eq (ls : List (List Char)) :
    parseLoop ls = (((ls.map pyStrip).filter (fun l => !l.isEmpty)).map parseLine) := by
  induction ls with
  | nil => rfl
  | cons l rest ih =>
    simp only [parseLoop, List.map_cons, List.filter_cons]
    by_cases h : (pyStrip l).isEmpty
    · simp [h, ih]
    · simp [h, ih]

/-- The non-blank (after stripping) lines of a raw item text. -/
def nonBlankLines (raw : List Char) : List (List Char) :=
  ((splitlines raw).map pyStrip).filter (fun l => !l.isEmpty)

/-- `parse_items` maps `parseLine` over the non-blank lines, failing exactly
when there are none. -/
theorem parse_items_eq (raw : List Char) :
    parse_items raw =
      if (nonBlankLines raw).isEmpty then
        Except.error (chars "Add at least 1 item line.")
      else Except.ok ((nonBlankLines raw).map parseLine) := by
  simp only [parse_items, parseLoop_eq, nonBlankLines, List.isEmpty_iff,
    List.map_eq_nil_iff]

/-- **C1.**  For every raw multi-line input with at least one non-blank line,
`parse_items` returns exactly one item per non-blank line — the items are the
`parseLine` images of the non-blank lines, in input order, so in particular
the output length equals the number of non-blank lines — and for input with
no non-blank lines it fails with the `ValueError` (the spec's
`ValidationError`) `"Add at least 1 item line."`. -/
theorem c1_parse_items_one_item_per_nonblank_line (raw : List Char) :
    (nonBlankLines raw ≠ [] →
      parse_items raw = Except.ok ((nonBlankLines raw).map parseLine) ∧
      ∀ items, parse_items raw = Except.ok items →
        items.length = (nonBlankLines raw).length) ∧
    (nonBlankLines raw = [] →
      parse_items raw = Except.error (chars "Add at least 1 item line.")) := by
  constructor
  · intro hne
    have h := parse_items_eq raw
    rw [if_neg (by simpa using hne)] at h
    refine ⟨h, ?_⟩
    intro items hitems
    rw [h] at hitems
    injection hitems with he
    rw [← he, List.length_map]
  · intro hnil
    have h := parse_items_eq raw
    rwa [if_pos (by simpa using hnil)] at h

/-- Witness for C1 at the concrete inputs
`"Shipping - $120\n\nCustoms fee 45"` (two non-blank lines, two items in
order) and `"  \n \n"` (no non-blank line, `ValidationError`). -/
theorem c1_parse_items_one_item_per_nonblank_line_witness :
    parse_items (chars "Shipping - $120\n\nCustoms fee 45") =
      Except.ok [⟨chars "Shipping", 1, 120⟩, ⟨chars "Customs fee", 1, 45⟩] ∧
    parse_items (chars "  \n \n") =
      Except.error (chars "Add at least 1 item line.") := by
  constructor
  · have h := (c1_parse_items_one_item_per_nonblank_line
      (chars "Shipping - $120\n\nCustoms fee 45")).1 (by decide)
    rw [h.1]
    decide
  · exact (c1_parse_items_one_item_per_nonblank_line (chars "  \n \n")).2 (by decide)

/-- **C2.**  For every non-blank line, the unit price is the LAST regex match
with `$` and `,` stripped, parsed as a decimal number, defaulting to `0.00`
when the parse fails or when there is no match; a line is never rejected (any
raw text with a non-blank line parses successfully).  In particular
`"Service: $1,250.50"` yields `1250.50`, and `"Fee - 5"` shows the
parse-failure fallback (the match `"- 5"` cleans to `"- 5"`, which
`float` rejects). -/
theorem c2_unit_price_last_numeric_match :
    (∀ line, findallNums line = [] → (parseLine line).unit_price = 0) ∧
    (∀ line ms m, findallNums line = ms ++ [m] →
      (parseLine line).unit_price = (pyFloat? (cleanNum m)).getD 0) ∧
    (∀ raw, (∃ l ∈ splitlines raw, pyStrip l ≠ []) →
      ∃ items, parse_items raw = Except.ok items) ∧
    (parseLine (chars "Service: $1,250.50")).unit_price = 1250.50 ∧
    (parseLine (chars "Fee - 5")).unit_price = 0 := by
  refine ⟨?_, ?_, ?_, by decide, by decide⟩
  · intro line h
    unfold parseLine
    rw [h]
    rfl
  · intro line ms m h
    unfold parseLine
    rw [h, List.getLast?_concat]
  · intro raw ⟨l, hl, hne⟩
    have hmem : pyStrip l ∈ nonBlankLines raw := by
      refine List.mem_filter.mpr ⟨List.mem_map_of_mem _ hl, ?_⟩
      simpa [List.isEmpty_iff] using hne
    have hnb : ¬(nonBlankLines raw).isEmpty := by
      simp only [List.isEmpty_iff]
      exact List.ne_nil_of_mem hmem
    rw [parse_items_eq raw, if_neg hnb]
    exact ⟨_, rfl⟩

/-- Witness for C2 at the concrete line `"Shipping - $120"`: its last (only)
match is `"$120"` and the parsed price is the cleaned decimal value; the
whole one-line input is accepted. -/
theorem c2_unit_price_last_numeric_match_witness :
    (parseLine (chars "Shipping - $120")).unit_price =
      (pyFloat? (cleanNum (chars "$120"))).getD 0 ∧
    (∃ items, parse_items (chars "Shipping - $120") = Except.ok items) := by
  constructor
  · exact c2_unit_price_last_numeric_match.2.1 (chars "Shipping - $120")
      [] (chars "$120") (by decide)
  · exact c2_unit_price_last_numeric_match.2.2.1 (chars "Shipping - $120")
      ⟨chars "Shipping - $120", by decide, by decide⟩

/-! ## Occurrence lemmas for the description computation -/

theorem isPrefixOf_refl_append (l r : List Char) : l.isPrefixOf (l ++ r) = true := by
  induction l with
  | nil => simp [List.isPrefixOf]
  | cons c t ih => simp [List.isPrefixOf, ih]

theorem isPrefixOf_length_le {l₁ l₂ : List Char} (h : l₁.isPrefixOf l₂ = true) :
    l₁.length ≤ l₂.length := by
  induction l₁ generalizing l₂ with
  | nil => simp
  | cons c t ih =>
    cases l₂ with
    | nil => simp [List.isPrefixOf] at h
    | cons d t₂ =>
      simp only [List.isPrefixOf, Bool.and_eq_true] at h
      simpa using ih h.2

theorem drop_length_append (m r : List Char) (i : ℕ) :
    (m ++ r).drop (m.length + i) = r.drop i := by
  induction m with
  | nil => simp
  | cons c t ih =>
    simp only [List.cons_append, List.length_cons]
    rw [Nat.succ_add, List.drop_succ_cons]
    exact ih

/-- Every string returned by `findallNums s` is non-empty and occurs in `s`. -/
theorem findallNums_mem_occurs :
    ∀ (n : ℕ) (s : List Char), s.length ≤ n → ∀ m ∈ findallNums s,
      m ≠ [] ∧ ∃ i, occursAt s m i = true := by
  intro n
  induction n with
  | zero =>
    intro s hlen m hm
    have hs : s = [] := List.length_eq_zero.mp (Nat.le_zero.mp hlen)
    subst hs
    simp [findallNums, findallNumsFuel] at hm
  | succ k ih =>
    intro s hlen m hm
    rw [findallNums_eq] at hm
    split at hm
    next m0 r hmatch =>
      have happ := matchNumAt_append hmatch
      rcases List.mem_cons.mp hm with hz | hmem
      · subst hz
        refine ⟨matchNumAt_ne_nil hmatch, 0, ?_⟩
        unfold occursAt
        rw [List.drop_zero, ← happ]
        exact isPrefixOf_refl_append m r
      · have hr : r.length < s.length := matchNumAt_length hmatch
        obtain ⟨hne, i, hi⟩ := ih r (by omega) m hmem
        refine ⟨hne, m0.length + i, ?_⟩
        unfold occursAt
        rw [← happ, drop_length_append]
        exact hi
    next hmatch =>
      cases s with
      | nil => simp at hm
      | cons c rest =>
        obtain ⟨hne, i, hi⟩ := ih rest (by simpa using hlen) m hm
        refine ⟨hne, i + 1, ?_⟩
        unfold occursAt
        rw [List.drop_succ_cons]
        exact hi

theorem occursAt_add_length_le {s sub : List Char} {i : ℕ} (hne : sub ≠ [])
    (h : occursAt s sub i = true) : i + sub.length ≤ s.length := by
  have hlen := isPrefixOf_length_le h
  rw [List.length_drop] at hlen
  have hpos : 0 < sub.length := List.length_pos.mpr hne
  omega

theorem pyRfindAux_spec (s sub : List Char) :
    ∀ k i, pyRfindAux s sub k = some i →
      occursAt s sub i = true ∧ i ≤ k ∧
        ∀ j, j ≤ k → occursAt s sub j = true → j ≤ i := by
  intro k
  induction k with
  | zero =>
    intro i h
    unfold pyRfindAux at h
    split at h
    next hc =>
      injection h with h
      subst h
      exact ⟨hc, le_refl _, fun j hj _ => hj⟩
    next => exact absurd h (by simp)
  | succ k ih =>
    intro i h
    unfold pyRfindAux at h
    split at h
    next hc =>
      injection h with h
      subst h
      exact ⟨hc, le_refl _, fun j hj _ => hj⟩
    next hc =>
      obtain ⟨h1, h2, h3⟩ := ih i h
      refine ⟨h1, by omega, ?_⟩
      intro j hj hocc
      rcases Nat.lt_or_ge j (k + 1) with hlt | hge
      · exact h3 j (by omega) hocc
      · exfalso
        have : j = k + 1 := by omega
        subst this
        simp [hocc] at hc

theorem pyRfindAux_isSome (s sub : List Char) :
    ∀ k j, j ≤ k → occursAt s sub j = true → (pyRfindAux s sub k).isSome = true := by
  intro k
  induction k with
  | zero =>
    intro j hj hocc
    have : j = 0 := Nat.le_zero.mp hj
    subst this
    unfold pyRfindAux
    rw [if_pos hocc]
    rfl
  | succ k ih =>
    intro j hj hocc
    unfold pyRfindAux
    by_cases hc : occursAt s sub (k + 1) = true
    · rw [if_pos hc]; rfl
    · rw [if_neg hc]
      have : j ≠ k + 1 := fun he => hc (he ▸ hocc)
      exact ih j (by omega) hocc

/-- `str.rfind` returns the greatest index at which `sub` occurs, whenever it
occurs at all. -/
theorem pyRfind_eq_last_occurrence {s sub : List Char} (hne : sub ≠ []) {i₀ : ℕ}
    (h : occursAt s sub i₀ = true) :
    ∃ i : ℕ, pyRfind s sub = (i : Int) ∧ occursAt s sub i = true ∧
      ∀ j, occursAt s sub j = true → j ≤ i := by
  have hpos : 0 < sub.length := List.length_pos.mpr hne
  have hi₀ : i₀ ≤ s.length := by
    have := occursAt_add_length_le hne h
    omega
  have hsome := pyRfindAux_isSome s sub s.length i₀ hi₀ h
  obtain ⟨i, hi⟩ := Option.isSome_iff_exists.mp hsome
  obtain ⟨h1, _, h3⟩ := pyRfindAux_spec s sub s.length i hi
  refine ⟨i, ?_, h1, ?_⟩
  · unfold pyRfind
    rw [hi]
  · intro j hocc
    have hj : j ≤ s.length := by
      have := occursAt_add_length_le hne hocc
      omega
    exact h3 j hj hocc

/-- The description computed by `parseLine` removes the matched substring at
its LAST occurrence (`line.rfind(last)`), trims `" -:|"`, and falls back to
the whole line when empty. -/
theorem parseLine_desc_last_occurrence {line : List Char} {ms : List (List Char)}
    {m : List Char} (h : findallNums line = ms ++ [m]) :
    ∃ i : ℕ, occursAt line m i = true ∧ (∀ j, occursAt line m j = true → j ≤ i) ∧
      (parseLine line).desc =
        (if (pyStripSet (chars " -:|")
              (line.take i ++ line.drop (i + m.length))).isEmpty
         then line
         else pyStripSet (chars " -:|") (line.take i ++ line.drop (i + m.length))) := by
  have hmem : m ∈ findallNums line := by rw [h]; simp
  obtain ⟨hne, i₀, hocc₀⟩ :=
    findallNums_mem_occurs line.length line (le_refl _) m hmem
  obtain ⟨i, hrf, hocc, hmax⟩ := pyRfind_eq_last_occurrence hne hocc₀
  have hpos : 0 < m.length := List.length_pos.mpr hne
  have hb : i + m.length ≤ line.length := occursAt_add_length_le hne hocc
  refine ⟨i, hocc, hmax, ?_⟩
  have hlast : (findallNums line).getLast? = some m := by
    rw [h]; exact List.getLast?_concat _
  unfold parseLine
  rw [hlast]
  dsimp only
  rw [hrf]
  have h1 : pyIdxClamp line.length ((i : ℕ) : Int) = i := by
    unfold pyIdxClamp
    rw [if_neg (by omega)]
    have ht : ((i : ℕ) : Int).toNat = i := by omega
    rw [ht]
    omega
  have h2 : pyIdxClamp line.length (((i : ℕ) : Int) + (m.length : Int)) = i + m.length := by
    unfold pyIdxClamp
    rw [if_neg (by omega)]
    have ht : (((i : ℕ) : Int) + (m.length : Int)).toNat = i + m.length := by omega
    rw [ht]
    omega
  rw [h1, h2]

theorem takeOpt_snd_mem {p : Char → Bool} {l : List Char} {x : Char}
    (hx : x ∈ (takeOpt p l).2) : x ∈ l := by
  cases l with
  | nil => simp [takeOpt] at hx
  | cons c rest =>
    simp only [takeOpt] at hx
    split at hx
    · exact List.mem_cons_of_mem _ hx
    · exact hx

/-- The regex requires a digit, so a line without digits has no match. -/
theorem matchNumAt_none_of_no_digit {s : List Char}
    (h : ∀ c ∈ s, c.isDigit = false) : matchNumAt s = none := by
  unfold matchNumAt
  dsimp only
  split
  · rfl
  next c s4 hd =>
    have h1 : c ∈ (takeOpt (fun c => c = '$')
        (takeOpt isSign s).2).2.dropWhile isPySpace := by
      rw [hd]; exact List.mem_cons_self _ _
    have h2 : c ∈ (takeOpt (fun c => c = '$') (takeOpt isSign s).2).2 :=
      (List.dropWhile_sublist _).subset h1
    have hc : c ∈ s := takeOpt_snd_mem (takeOpt_snd_mem h2)
    simp [h c hc]

theorem findallNums_nil_of_no_digit :
    ∀ s : List Char, (∀ c ∈ s, c.isDigit = false) → findallNums s = [] := by
  intro s
  induction s with
  | nil => intro _; rfl
  | cons c rest ih =>
    intro h
    rw [findallNums_eq, matchNumAt_none_of_no_digit h]
    exact ih (fun x hx => h x (List.mem_cons_of_mem _ hx))

/-- A line with no digits parses to `{"desc": line, "qty": 1, "unit_price": 0.0}`. -/
theorem parseLine_of_no_digit {line : List Char}
    (h : ∀ c ∈ line, c.isDigit = false) : parseLine line = ⟨line, 1, 0⟩ := by
  unfold parseLine
  rw [findallNums_nil_of_no_digit line h]
  rfl

/-- Python `str.find(sub)`: the LOWEST index at which `sub` occurs, `-1` if
it does not occur. -/
def pyFind (s sub : List Char) : Int :=
  match (List.range (s.length + 1)).find? (fun i => occursAt s sub i) with
  | some i => (i : Int)
  | none => -1

/-- Modelled from the spec (§4.1): "The description is the line with the
matched numeric substring's FIRST occurrence removed, then trimmed of
surrounding separator characters (space, hyphen, colon, pipe); if stripping
leaves an empty description, fall back to the full original line" — i.e. the
same computation as `parseLine` but with `str.find` in place of the source's
`str.rfind`. -/
def descSpecFirstOcc (line : List Char) : List Char :=
  match (findallNums line).getLast? with
  | none => line
  | some last =>
    let idx := pyFind line last
    let n := line.length
    let d := pyStripSet (chars " -:|")
      (line.take (pyIdxClamp n idx) ++ line.drop (pyIdxClamp n (idx + (last.length : Int))))
    if d.isEmpty then line else d

/-- **C3 (counterexample).**  On the line `"a5b5"` the last numeric match is
`"5"`; the code removes its LAST occurrence (`rfind`), giving description
`"a5b"`, whereas removing the FIRST occurrence as the claim states would give
`"ab5"`. -/
theorem c3_counterexample_first_occurrence :
    (parseLine (chars "a5b5")).desc = chars "a5b" ∧
    descSpecFirstOcc (chars "a5b5") = chars "ab5" ∧
    (parseLine (chars "a5b5")).desc ≠ descSpecFirstOcc (chars "a5b5") := by decide

/-- **C3 (amended).**  For every line with at least one numeric match, the
parsed description is the line with the matched numeric substring's LAST
occurrence (the greatest index at which it occurs) removed, then trimmed of
surrounding `" -:|"`, falling back to the full line when the result is empty;
a line with no digits gets unit price `0.00` and the original line as its
description; `"Shipping - $120"` yields description `"Shipping"` and unit
price `120.00`. -/
theorem c3_desc_last_occurrence_removed (line : List Char) :
    ((∀ c ∈ line, c.isDigit = false) →
      (parseLine line).unit_price = 0 ∧ (parseLine line).desc = line) ∧
    (∀ ms m, findallNums line = ms ++ [m] →
      ∃ i : ℕ, occursAt line m i = true ∧ (∀ j, occursAt line m j = true → j ≤ i) ∧
        (parseLine line).desc =
          (if (pyStripSet (chars " -:|")
                (line.take i ++ line.drop (i + m.length))).isEmpty
           then line
           else pyStripSet (chars " -:|") (line.take i ++ line.drop (i + m.length)))) ∧
    parseLine (chars "Shipping - $120") = ⟨chars "Shipping", 1, 120⟩ := by
  refine ⟨?_, ?_, by decide⟩
  · intro h
    rw [parseLine_of_no_digit h]
    exact ⟨rfl, rfl⟩
  · intro ms m h
    exact parseLine_desc_last_occurrence h

/-- Witness for the amended C3: the no-digit case at
`"no digits here"` and the last-occurrence description at
`"Shipping - $120"` (match `"$120"`). -/
theorem c3_desc_last_occurrence_removed_witness :
    ((parseLine (chars "no digits here")).unit_price = 0 ∧
      (parseLine (chars "no digits here")).desc = chars "no digits here") ∧
    (∃ i : ℕ, occursAt (chars "Shipping - $120") (chars "$120") i = true ∧
      (∀ j, occursAt (chars "Shipping - $120") (chars "$120") j = true → j ≤ i) ∧
      (parseLine (chars "Shipping - $120")).desc =
        (if (pyStripSet (chars " -:|")
              ((chars "Shipping - $120").take i ++
                (chars "Shipping - $120").drop (i + (chars "$120").length))).isEmpty
         then chars "Shipping - $120"
         else pyStripSet (chars " -:|")
              ((chars "Shipping - $120").take i ++
                (chars "Shipping - $120").drop (i + (chars "$120").length)))) := by
  constructor
  · exact (c3_desc_last_occurrence_removed (chars "no digits here")).1 (by decide)
  · exact (c3_desc_last_occurrence_removed (chars "Shipping - $120")).2.1
      [] (chars "$120") (by decide)

/-! ## C4: the stored total -/

/-- What a successful `/new` POST stores: the parsed items and their total. -/
theorem new_invoice_post_ok {uid : ℕ} {tok ca : List Char} {f : NewInvoiceForm}
    {st : List InvRow} {k : ℕ} {st' : List InvRow}
    (h : new_invoice_post uid tok ca f st = (NewInvOutcome.redirectCreated k, st')) :
    ∃ items, parse_items f.items_raw = Except.ok items ∧ k = st.length ∧
      st' = st ++ [⟨pyStrip f.invoice_number, pyStrip f.client_name,
        pyStrip f.client_email, pyStrip f.client_address, pyStrip f.issue_date,
        pyStrip f.due_date, pyUpper (if f.currency.isEmpty then chars "USD" else f.currency),
        items, pyStrip f.payment_methods, pyStrip f.notes, invoiceTotal items,
        uid, tok, ca⟩] := by
  unfold new_invoice_post at h
  dsimp only at h
  split at h
  · exact absurd h (by simp)
  · split at h
    next e he => exact absurd h (by simp)
    next items hitems =>
      split at h
      · exact absurd h (by simp)
      · injection h with h1 h2
        injection h1 with h1
        exact ⟨items, hitems, h1.symm, h2.symm⟩

/-- On every outcome, the `/new` POST handler only ever appends: the stored
prefix is untouched (invoices are write-once). -/
theorem new_invoice_post_append_only (uid : ℕ) (tok ca : List Char)
    (f : NewInvoiceForm) (st : List InvRow) :
    (new_invoice_post uid tok ca f st).2.take st.length = st := by
  unfold new_invoice_post
  dsimp only
  split
  · simp
  · split
    · simp
    · split
      · simp
      · simp

/-- **C4.**  Every invoice accepted at creation stores
`total_amount = sum(qty * unit_price)` over its parsed items, so recomputing
`invoiceTotal` later from the stored items returns the stored value; the
handler never modifies previously stored invoices (every invoice in the new
store is an old one or satisfies the total equation); and the sum over an
empty item sequence is `0`. -/
theorem c4_total_amount_invariant (uid : ℕ) (tok ca : List Char)
    (f : NewInvoiceForm) (st : List InvRow) (k : ℕ) (st' : List InvRow)
    (h : new_invoice_post uid tok ca f st = (NewInvOutcome.redirectCreated k, st')) :
    (∃ inv, st' = st ++ [inv] ∧ inv.total_amount = invoiceTotal inv.items) ∧
    st'.take st.length = st ∧
    (∀ inv ∈ st', inv ∈ st ∨ inv.total_amount = invoiceTotal inv.items) ∧
    invoiceTotal [] = 0 := by
  obtain ⟨items, _, _, hst⟩ := new_invoice_post_ok h
  refine ⟨⟨_, hst, rfl⟩, ?_, ?_, rfl⟩
  · have := new_invoice_post_append_only uid tok ca f st
    rw [h] at this
    exact this
  · intro inv hinv
    rw [hst] at hinv
    rcases List.mem_append.mp hinv with hold | hnew
    · exact Or.inl hold
    · right
      have : inv = _ := List.mem_singleton.mp hnew
      rw [this]

/-- Witness for C4: a concrete successful creation from the empty store. -/
theorem c4_total_amount_invariant_witness :
    ∃ inv, [inv].take 0 = ([] : List InvRow) ∧
      inv.total_amount = invoiceTotal inv.items ∧ invoiceTotal [] = 0 := by
  have h := c4_total_amount_invariant 1 (chars "tokA") (chars "t0")
    ⟨chars "INV-1", chars "Client", [], [], chars "2026-01-01", chars "2026-01-15",
     chars "USD", chars "Shipping - $120", [], []⟩ [] 0
    ((new_invoice_post 1 (chars "tokA") (chars "t0")
      ⟨chars "INV-1", chars "Client", [], [], chars "2026-01-01", chars "2026-01-15",
       chars "USD", chars "Shipping - $120", [], []⟩ []).2) (by decide)
  obtain ⟨⟨inv, hst, htot⟩, _, _, hz⟩ := h
  refine ⟨inv, by simp, htot, hz⟩

/-! ## C5: PDF pagination -/

/-- An event emitted by the item loop: any row it draws sits at or above the
footer zone boundary, and it never draws the footer. -/
def SafeEvent (e : PdfEvent) : Prop :=
  (∀ d a y, e = PdfEvent.rowItem d a y → FOOTER_SPACE ≤ y) ∧ e ≠ PdfEvent.footer

/-- Loop invariant: `pdfItemsLoop` only adds item rows drawn at
`y ≥ FOOTER_SPACE` (resetting to the top margin first when the cursor is
inside the reserved zone), and never emits a footer event. -/
theorem pdfItemsLoop_safe (currency : List Char) :
    ∀ (items : List Item) (y : Int) (cur : List PdfEvent)
      (pages : List (List PdfEvent)) (total : ℚ),
      (∀ p ∈ pages, ∀ e ∈ p, SafeEvent e) → (∀ e ∈ cur, SafeEvent e) →
      (∀ p ∈ (pdfItemsLoop currency items y cur pages total).1,
        ∀ e ∈ p, SafeEvent e) ∧
      (∀ e ∈ (pdfItemsLoop currency items y cur pages total).2.1, SafeEvent e) := by
  intro items
  induction items with
  | nil =>
    intro y cur pages total hp hc
    exact ⟨hp, hc⟩
  | cons it rest ih =>
    intro y cur pages total hp hc
    simp only [pdfItemsLoop]
    split
    next hy =>
      apply ih
      · intro p hpmem
        rcases List.mem_append.mp hpmem with h1 | h2
        · exact hp p h1
        · have hpc : p = cur := List.mem_singleton.mp h2
          subst hpc
          exact hc
      · intro e he
        have he' : e = PdfEvent.rowItem (it.desc.take 80)
            (money currency (it.qty * it.unit_price)) (pageH - 60) :=
          List.mem_singleton.mp he
        subst he'
        constructor
        · intro d a yy heq
          injection heq with _ _ hyy
          subst hyy
          decide
        · simp
    next hy =>
      apply ih
      · exact hp
      · intro e he
        rcases List.mem_append.mp he with h1 | h2
        · exact hc e h1
        · have he' : e = PdfEvent.rowItem (it.desc.take 80)
              (money currency (it.qty * it.unit_price)) y :=
            List.mem_singleton.mp h2
          subst he'
          constructor
          · intro d a yy heq
            injection heq with _ _ hyy
            subst hyy
            omega
          · simp

/-- A large invoice used to exercise the page-overflow behaviour: 73
identical items overflow the first page. -/
def pdfOverflowExample : InvRow :=
  ⟨chars "INV-73", chars "Client", [], [], chars "2026-01-01", chars "2026-01-15",
   chars "USD", List.replicate 73 ⟨chars "Freight", 1, 10⟩, [], [], 730, 1,
   chars "tok73", chars "t0"⟩

set_option maxRecDepth 40000 in
/-- **C5.**  Before each item row the engine checks whether the cursor is
below the reserved 160-unit footer zone and, if so, starts a new page at the
top margin: hence every row of every page of every rendered invoice sits at
`y ≥ 160`, and the footer block appears exactly once, on the final page only.
A 73-item invoice overflows to a second page, and its total line (drawn
after the last row with no pagination check) lands at `y = 150`, inside the
footer zone. -/
theorem c5_pdf_pagination :
    (∀ inv : InvRow,
      (∀ p ∈ invoice_pdf_bytes inv, ∀ e ∈ p, ∀ d a y,
        e = PdfEvent.rowItem d a y → FOOTER_SPACE ≤ y) ∧
      (∃ rest lastPage, invoice_pdf_bytes inv = rest ++ [lastPage] ∧
        (∀ p ∈ rest, PdfEvent.footer ∉ p) ∧
        lastPage.count PdfEvent.footer = 1)) ∧
    (invoice_pdf_bytes pdfOverflowExample).length = 2 ∧
    PdfEvent.totalLine (chars "TOTAL: $730.00 USD") 150 ∈
      (invoice_pdf_bytes pdfOverflowExample).getD 1 [] ∧
    (150 : Int) < FOOTER_SPACE := by
  refine ⟨?_, by decide, by decide, by decide⟩
  intro inv
  have hsafe := pdfItemsLoop_safe (pyUpper inv.currency) inv.items (headerY inv)
    [] [] 0 (by intro p hp; simp at hp) (by intro e he; simp at he)
  unfold invoice_pdf_bytes
  constructor
  · intro p hp e he d a y heq
    rcases List.mem_append.mp hp with h1 | h2
    · exact ((hsafe.1 p h1 e he).1 d a y heq)
    · have hpc := List.mem_singleton.mp h2
      subst hpc
      rcases List.mem_append.mp he with h3 | h4
      · exact ((hsafe.2 e h3).1 d a y heq)
      · rcases List.mem_cons.mp h4 with h5 | h6
        · subst h5; exact absurd heq (by simp)
        · have := List.mem_singleton.mp h6
          subst this
          exact absurd heq (by simp)
  · refine ⟨_, _, rfl, ?_, ?_⟩
    · intro p hp hfoot
      exact (hsafe.1 p hp _ hfoot).2 rfl
    · rw [List.count_append]
      have hz : (pdfItemsLoop (pyUpper inv.currency) inv.items (headerY inv)
          [] [] 0).2.1.count PdfEvent.footer = 0 := by
        rw [List.count_eq_zero]
        intro hfoot
        exact (hsafe.2 _ hfoot).2 rfl
      rw [hz]
      simp [List.count_cons]

set_option maxRecDepth 40000 in
/-- Witness for C5: in the rendered 73-item example, the first row of the
first page (`"Freight"` at `y = 606`) is above the footer zone, and the
footer appears exactly once, on the final page. -/
theorem c5_pdf_pagination_witness :
    FOOTER_SPACE ≤ (606 : Int) ∧
    (∃ rest lastPage, invoice_pdf_bytes pdfOverflowExample = rest ++ [lastPage] ∧
      (∀ p ∈ rest, PdfEvent.footer ∉ p) ∧
      lastPage.count PdfEvent.footer = 1) := by
  constructor
  · exact (c5_pdf_pagination.1 pdfOverflowExample).1
      ((invoice_pdf_bytes pdfOverflowExample).getD 0 []) (by decide)
      (PdfEvent.rowItem (chars "Freight") (chars "$10.00 USD") 606) (by decide)
      (chars "Freight") (chars "$10.00 USD") 606 rfl
  · exact (c5_pdf_pagination.1 pdfOverflowExample).2

/-! ## C6: the owner-setup gate -/

/-- **C6.**  The owner-existence condition is evaluated against the store on
every request: once any owner exists, every owner-setup request (GET or POST)
returns the "already exists" response and leaves the user store untouched;
a successful creation itself establishes that condition, so from the first
successful owner creation on, every subsequent request in the same process
gets the "already exists" response and no further owner is ever created. -/
theorem c6_owner_setup_disabled_after_first (setupKeyCfg : List Char)
    (hash : List Char → List Char) :
    (∀ m f users, any_owner_exists users = true →
      owner_setup setupKeyCfg hash m f users = (SetupResp.alreadyExists, users)) ∧
    (∀ m f users users', owner_setup setupKeyCfg hash m f users =
        (SetupResp.redirectLogin, users') → any_owner_exists users' = true) ∧
    (∀ reqs users, any_owner_exists users = true →
      owner_setup_run setupKeyCfg hash reqs users =
        (reqs.map (fun _ => SetupResp.alreadyExists), users)) := by
  have halready : ∀ m f users, any_owner_exists users = true →
      owner_setup setupKeyCfg hash m f users = (SetupResp.alreadyExists, users) := by
    intro m f users h
    unfold owner_setup
    rw [if_pos h]
  refine ⟨halready, ?_, ?_⟩
  · intro m f users users' h
    unfold owner_setup at h
    split at h
    next hex => exact absurd h (by simp)
    next hex =>
      cases m with
      | GET => exact absurd h (by simp)
      | POST =>
        dsimp only at h
        split at h
        · exact absurd h (by simp)
        · split at h
          · exact absurd h (by simp)
          · injection h with h1 h2
            rw [← h2]
            simp [any_owner_exists]
  · intro reqs
    induction reqs with
    | nil => intro users _; rfl
    | cons r rest ih =>
      intro users h
      obtain ⟨m, f⟩ := r
      simp only [owner_setup_run]
      rw [halready m f users h]
      dsimp only
      rw [ih users h]
      simp

/-- Witness for C6: with an owner `"bob"` already stored, a well-formed POST
(correct key, valid username/password) still returns "already exists", and a
two-request GET/POST sequence returns "already exists" twice without touching
the store. -/
theorem c6_owner_setup_disabled_after_first_witness :
    owner_setup (chars "KEY") id Method.POST
      ⟨chars "KEY", chars "alice", chars "secret1", chars "secret1"⟩
      [⟨chars "bob", chars "h", chars "owner"⟩]
      = (SetupResp.alreadyExists, [⟨chars "bob", chars "h", chars "owner"⟩]) ∧
    owner_setup_run (chars "KEY") id
      [(Method.GET, ⟨[], [], [], []⟩),
       (Method.POST, ⟨chars "KEY", chars "alice", chars "secret1", chars "secret1"⟩)]
      [⟨chars "bob", chars "h", chars "owner"⟩]
      = ([SetupResp.alreadyExists, SetupResp.alreadyExists],
         [⟨chars "bob", chars "h", chars "owner"⟩]) := by
  constructor
  · exact (c6_owner_setup_disabled_after_first (chars "KEY") id).1 Method.POST
      ⟨chars "KEY", chars "alice", chars "secret1", chars "secret1"⟩
      [⟨chars "bob", chars "h", chars "owner"⟩] (by decide)
  · exact (c6_owner_setup_disabled_after_first (chars "KEY") id).2.2
      [(Method.GET, ⟨[], [], [], []⟩),
       (Method.POST, ⟨chars "KEY", chars "alice", chars "secret1", chars "secret1"⟩)]
      [⟨chars "bob", chars "h", chars "owner"⟩] (by decide)

/-! ## C7: money formatting -/

/-- A least-significant-digit-first string is well grouped when read from the
right: groups of exactly three digits separated by `','`, ending (at the
most significant side) in a group of one to three digits. -/
inductive GroupedRev : List Char → Prop
  | small : ∀ l : List Char, l ≠ [] → l.length ≤ 3 →
      (∀ c ∈ l, c.isDigit = true) → GroupedRev l
  | step : ∀ (a b c : Char) (rest : List Char), a.isDigit = true →
      b.isDigit = true → c.isDigit = true → GroupedRev rest →
      GroupedRev (a :: b :: c :: ',' :: rest)

theorem digitChar_isDigit {d : ℕ} (h : d < 10) : (digitChar d).isDigit = true := by
  interval_cases d <;> decide

theorem natDigitsRev_digits : ∀ (n : ℕ), ∀ c ∈ natDigitsRev n, c.isDigit = true := by
  intro n
  induction n using Nat.strong_induction_on with
  | _ n ih =>
    intro c hc
    rw [natDigitsRev_eq] at hc
    split at hc
    · simp at hc
    next hz =>
      rcases List.mem_cons.mp hc with h1 | h2
      · subst h1
        exact digitChar_isDigit (Nat.mod_lt _ (by norm_num))
      · exact ih (n / 10) (Nat.div_lt_self (Nat.pos_of_ne_zero hz) (by norm_num)) c h2

theorem groupRev_mem : ∀ (l : List Char) (x : Char), x ∈ groupRev l → x ∈ l ∨ x = ','
  | [], _, hx => Or.inl hx
  | [a], _, hx => Or.inl hx
  | [a, b], _, hx => Or.inl hx
  | [a, b, c], _, hx => Or.inl hx
  | a :: b :: c :: d :: rest, x, hx => by
    have hg : groupRev (a :: b :: c :: d :: rest)
        = a :: b :: c :: ',' :: groupRev (d :: rest) := rfl
    rw [hg] at hx
    rcases List.mem_cons.mp hx with h | hx
    · exact Or.inl (h ▸ List.mem_cons_self _ _)
    rcases List.mem_cons.mp hx with h | hx
    · exact Or.inl (h ▸ List.mem_cons_of_mem _ (List.mem_cons_self _ _))
    rcases List.mem_cons.mp hx with h | hx
    · exact Or.inl (h ▸ List.mem_cons_of_mem _ (List.mem_cons_of_mem _ (List.mem_cons_self _ _)))
    rcases List.mem_cons.mp hx with h | hx
    · exact Or.inr h
    · rcases groupRev_mem (d :: rest) x hx with h | h
      · exact Or.inl (List.mem_cons_of_mem _ (List.mem_cons_of_mem _ (List.mem_cons_of_mem _ h)))
      · exact Or.inr h

theorem groupRev_ne_nil : ∀ l : List Char, l ≠ [] → groupRev l ≠ []
  | [], h => absurd rfl h
  | [a], _ => by simp [groupRev]
  | [a, b], _ => by simp [groupRev]
  | [a, b, c], _ => by simp [groupRev]
  | a :: b :: c :: d :: rest, _ => by simp [groupRev]

theorem groupRev_grouped : ∀ (n : ℕ) (l : List Char), l.length ≤ n → l ≠ [] →
    (∀ c ∈ l, c.isDigit = true) → GroupedRev (groupRev l) := by
  intro n
  induction n with
  | zero =>
    intro l hlen hne _
    exact absurd (List.length_eq_zero.mp (Nat.le_zero.mp hlen)) hne
  | succ k ih =>
    intro l hlen hne hdig
    match l with
    | [a] => exact GroupedRev.small [a] (by simp) (by simp) hdig
    | [a, b] => exact GroupedRev.small [a, b] (by simp) (by simp) hdig
    | [a, b, c] => exact GroupedRev.small [a, b, c] (by simp) (by simp) hdig
    | a :: b :: c :: d :: rest =>
      have hg : groupRev (a :: b :: c :: d :: rest)
          = a :: b :: c :: ',' :: groupRev (d :: rest) := rfl
      rw [hg]
      refine GroupedRev.step a b c _ (hdig a (by simp)) (hdig b (by simp))
        (hdig c (by simp)) ?_
      refine ih (d :: rest) ?_ (by simp) ?_
      · simp only [List.length_cons] at hlen ⊢
        omega
      · intro x hx
        exact hdig x (List.mem_cons_of_mem _ (List.mem_cons_of_mem _
          (List.mem_cons_of_mem _ hx)))

theorem commaGroup_shape (n : ℕ) :
    commaGroup n ≠ [] ∧ (∀ c ∈ commaGroup n, c.isDigit = true ∨ c = ',') ∧
    GroupedRev (commaGroup n).reverse := by
  have hne : (if n = 0 then ['0'] else natDigitsRev n) ≠ [] := by
    split
    · simp
    next hz =>
      rw [natDigitsRev_eq, if_neg hz]
      simp
  have hdig : ∀ c ∈ (if n = 0 then ['0'] else natDigitsRev n), c.isDigit = true := by
    split
    · intro c hc
      rw [List.mem_singleton.mp hc]
      decide
    · exact natDigitsRev_digits n
  refine ⟨?_, ?_, ?_⟩
  · unfold commaGroup
    simp only [ne_eq, List.reverse_eq_nil_iff]
    exact groupRev_ne_nil _ hne
  · intro c hc
    unfold commaGroup at hc
    rw [List.mem_reverse] at hc
    rcases groupRev_mem _ c hc with h | h
    · exact Or.inl (hdig c h)
    · exact Or.inr h
  · unfold commaGroup
    rw [List.reverse_reverse]
    exact groupRev_grouped _ _ (le_refl _) hne hdig

/-- The shape of `f"{x:,.2f}"`: an optional minus sign, a non-empty
thousands-grouped integer part of digits and commas, then `'.'` and exactly
two decimal digits. -/
theorem pyFormatComma2_shape (x : ℚ) :
    ∃ sgn ip d1 d2, pyFormatComma2 x = sgn ++ ip ++ ['.', d1, d2] ∧
      (sgn = [] ∨ sgn = ['-']) ∧ ip ≠ [] ∧
      (∀ c ∈ ip, c.isDigit = true ∨ c = ',') ∧ GroupedRev ip.reverse ∧
      d1.isDigit = true ∧ d2.isDigit = true := by
  obtain ⟨hne, hmem, hgrp⟩ :=
    commaGroup_shape ((roundHalfEven (|x| * 100)).toNat / 100)
  refine ⟨if x < 0 then ['-'] else [], _, _, _, rfl, ?_, hne, hmem, hgrp, ?_, ?_⟩
  · split
    · exact Or.inr rfl
    · exact Or.inl rfl
  · exact digitChar_isDigit (by omega)
  · exact digitChar_isDigit (Nat.mod_lt _ (by norm_num))

theorem space_not_digit {c : Char} (h : isPySpace c = true) : c.isDigit = false := by
  unfold isPySpace at h
  simp only [Bool.or_eq_true, decide_eq_true_eq] at h
  rcases h with ((((h | h) | h) | h) | h) | h <;> subst h <;> decide

theorem isDigit_not_space {c : Char} (h : c.isDigit = true) : isPySpace c = false := by
  by_cases hs : isPySpace c = true
  · rw [space_not_digit hs] at h
    exact absurd h (by simp)
  · simpa using hs

theorem pyFormatComma2_no_space (x : ℚ) :
    ∀ c ∈ pyFormatComma2 x, isPySpace c = false := by
  obtain ⟨sgn, ip, d1, d2, heq, hsgn, _, hip, _, hd1, hd2⟩ := pyFormatComma2_shape x
  intro c hc
  rw [heq] at hc
  simp only [List.append_assoc, List.mem_append, List.mem_cons,
    List.not_mem_nil, or_false] at hc
  rcases hc with hc | hc | hc
  · rcases hsgn with h | h <;> subst h
    · simp at hc
    · rw [List.mem_singleton.mp hc]
      decide
  · rcases hip c hc with h | h
    · exact isDigit_not_space h
    · subst h
      decide
  · rcases hc with h | h | h
    · subst h; decide
    · subst h; exact isDigit_not_space hd1
    · subst h; exact isDigit_not_space hd2

theorem pyFormatComma2_ne_nil (x : ℚ) : pyFormatComma2 x ≠ [] := by
  obtain ⟨sgn, ip, d1, d2, heq, _⟩ := pyFormatComma2_shape x
  rw [heq]
  simp

/-- `str.strip()` is the identity on a string whose first and last characters
are not whitespace. -/
theorem pyStripGen_eq_self {p : Char → Bool} {l : List Char}
    (h1 : ∃ a t, l = a :: t ∧ p a = false)
    (h2 : ∃ a t, l = t ++ [a] ∧ p a = false) : pyStripGen p l = l := by
  obtain ⟨a, t, he1, hpa⟩ := h1
  obtain ⟨b, t2, he2, hpb⟩ := h2
  unfold pyStripGen
  have hd1 : l.dropWhile p = l := by
    rw [he1]
    simp [List.dropWhile_cons, hpa]
  rw [hd1]
  have hd2 : l.reverse.dropWhile p = l.reverse := by
    rw [he2]
    simp [List.reverse_append, List.dropWhile_cons, hpb]
  rw [hd2, List.reverse_reverse]

/-- `money` never actually strips anything: the formatted string starts with
`'$'`, a sign or a digit and ends with the currency code. -/
theorem money_eq (currency : List Char) (x : ℚ) (hne : currency ≠ [])
    (hns : ∀ c ∈ currency, isPySpace c = false) :
    money currency x =
      (if currency = chars "USD" then ['$'] else []) ++
        pyFormatComma2 x ++ [' '] ++ currency := by
  unfold money
  dsimp only
  apply pyStripGen_eq_self
  · by_cases hc : currency = chars "USD"
    · rw [if_pos hc]
      exact ⟨'$', _, rfl, by decide⟩
    · rw [if_neg hc]
      obtain ⟨f0, frest, hf⟩ := List.exists_cons_of_ne_nil (pyFormatComma2_ne_nil x)
      refine ⟨f0, frest ++ [' '] ++ currency, ?_, ?_⟩
      · rw [hf]
        simp
      · exact pyFormatComma2_no_space x f0 (by rw [hf]; exact List.mem_cons_self _ _)
  · refine ⟨currency.getLast hne,
      (if currency = chars "USD" then ['$'] else []) ++
        pyFormatComma2 x ++ [' '] ++ currency.dropLast, ?_,
      hns _ (List.getLast_mem hne)⟩
    conv_lhs => rw [← List.dropLast_append_getLast hne]
    simp
    rw [List.dropLast_append_getLast hne]

/-- **C7.**  The PDF money formatter produces
`[optional "$"] ++ formatted-number ++ " " ++ currency-code`, where the `"$"`
prefix appears exactly when the currency is `"USD"`, and the formatted number
is an optional minus sign, a thousands-grouped digit string, and exactly two
decimal digits after the decimal point.  Concretely,
`money "USD" 1234.56 = "$1,234.56 USD"` and
`money "EUR" 1234.56 = "1,234.56 EUR"`. -/
theorem c7_money_format (x : ℚ) (currency : List Char) (hne : currency ≠ [])
    (hns : ∀ c ∈ currency, isPySpace c = false) :
    money currency x =
      (if currency = chars "USD" then ['$'] else []) ++
        pyFormatComma2 x ++ [' '] ++ currency ∧
    (∃ sgn ip d1 d2, pyFormatComma2 x = sgn ++ ip ++ ['.', d1, d2] ∧
      (sgn = [] ∨ sgn = ['-']) ∧ ip ≠ [] ∧
      (∀ c ∈ ip, c.isDigit = true ∨ c = ',') ∧ GroupedRev ip.reverse ∧
      d1.isDigit = true ∧ d2.isDigit = true) ∧
    money (chars "USD") (1234.56 : ℚ) = chars "$1,234.56 USD" ∧
    money (chars "EUR") (1234.56 : ℚ) = chars "1,234.56 EUR" :=
  ⟨money_eq currency x hne hns, pyFormatComma2_shape x, by decide, by decide⟩

/-- Witness for C7 at `x = 730`, currency `"GBP"` (no `"$"` prefix) and the
two concrete example renderings. -/
theorem c7_money_format_witness :
    money (chars "GBP") (730 : ℚ) =
      (if chars "GBP" = chars "USD" then ['$'] else []) ++
        pyFormatComma2 (730 : ℚ) ++ [' '] ++ chars "GBP" ∧
    money (chars "USD") (1234.56 : ℚ) = chars "$1,234.56 USD" := by
  refine ⟨(c7_money_format (730 : ℚ) (chars "GBP") (by decide) (by decide)).1, ?_⟩
  exact (c7_money_format (730 : ℚ) (chars "GBP") (by decide) (by decide)).2.2.1

/-! ## C8: view-token uniqueness -/

theorem b64urlEncode_length_triple : ∀ (k : ℕ) (bs : List ℕ), bs.length = 3 * k →
    (b64urlEncode bs).length = 4 * k := by
  intro k
  induction k with
  | zero =>
    intro bs h
    have hb : bs = [] := List.length_eq_zero.mp (by omega)
    subst hb
    rfl
  | succ n ih =>
    intro bs h
    match bs with
    | [] => simp at h
    | [a] => simp at h; omega
    | [a, b] => simp at h; omega
    | a :: b :: c :: rest =>
      have hr : rest.length = 3 * n := by
        simp only [List.length_cons] at h
        omega
      simp only [b64urlEncode, List.length_cons]
      rw [ih rest hr]
      omega

theorem b64Char_safe {n : ℕ} (h : n < 64) : isUrlSafeChar (b64Char n) = true := by
  interval_cases n <;> decide

theorem b64urlEncode_safe : ∀ bs : List ℕ, (∀ b ∈ bs, b < 256) →
    ∀ ch ∈ b64urlEncode bs, isUrlSafeChar ch = true
  | [], _, ch, hch => by simp [b64urlEncode] at hch
  | [a], h, ch, hch => by
    have ha := h a (by simp)
    simp only [b64urlEncode, List.mem_cons, List.not_mem_nil, or_false] at hch
    rcases hch with h1 | h1 <;> subst h1 <;> exact b64Char_safe (by omega)
  | [a, b], h, ch, hch => by
    have ha := h a (by simp)
    have hb := h b (by simp)
    simp only [b64urlEncode, List.mem_cons, List.not_mem_nil, or_false] at hch
    rcases hch with h1 | h1 | h1 <;> subst h1 <;> exact b64Char_safe (by omega)
  | a :: b :: c :: d :: rest, h, ch, hch => by
    have ha := h a (by simp)
    have hb := h b (by simp)
    have hc := h c (by simp)
    simp only [b64urlEncode, List.mem_cons] at hch
    rcases hch with h1 | h1 | h1 | h1 | h1
    · subst h1; exact b64Char_safe (by omega)
    · subst h1; exact b64Char_safe (by omega)
    · subst h1; exact b64Char_safe (by omega)
    · subst h1; exact b64Char_safe (by omega)
    · exact b64urlEncode_safe (d :: rest)
        (fun x hx => h x (List.mem_cons_of_mem _ (List.mem_cons_of_mem _
          (List.mem_cons_of_mem _ hx)))) ch h1
  | [a, b, c], h, ch, hch => by
    have ha := h a (by simp)
    have hb := h b (by simp)
    have hc := h c (by simp)
    simp only [b64urlEncode, List.mem_cons, List.not_mem_nil, or_false] at hch
    rcases hch with h1 | h1 | h1 | h1 <;> subst h1 <;> exact b64Char_safe (by omega)

/-- A successful insert implies the new token differed from every stored
token (otherwise the `UNIQUE` constraint aborts the insert). -/
theorem new_invoice_post_token_fresh {uid : ℕ} {tok ca : List Char}
    {f : NewInvoiceForm} {st : List InvRow} {k : ℕ} {st' : List InvRow}
    (h : new_invoice_post uid tok ca f st = (NewInvOutcome.redirectCreated k, st')) :
    ∀ inv ∈ st, inv.view_token ≠ tok := by
  unfold new_invoice_post at h
  dsimp only at h
  split at h
  · exact absurd h (by simp)
  · split at h
    · exact absurd h (by simp)
    · split at h
      next hany => exact absurd h (by simp)
      next hany =>
        intro inv hinv heq
        exact hany (List.any_eq_true.mpr ⟨inv, hinv, by simp [heq]⟩)

/-- **C8.**  `token_urlsafe` over 18 bytes yields a 24-character token drawn
from the URL-safe alphabet; a successful invoice creation preserves pairwise
distinctness of all stored view tokens (dupes are rejected by the schema's
`UNIQUE` constraint); and two invoices created in sequence never carry the
same view token. -/
theorem c8_view_token_unique :
    (∀ bytes : List ℕ, bytes.length = 18 → (∀ b ∈ bytes, b < 256) →
      (token_urlsafe bytes).length = 24 ∧
      ∀ c ∈ token_urlsafe bytes, isUrlSafeChar c = true) ∧
    (∀ uid tok ca (f : NewInvoiceForm) st k st',
      new_invoice_post uid tok ca f st = (NewInvOutcome.redirectCreated k, st') →
      (st.map InvRow.view_token).Nodup → (st'.map InvRow.view_token).Nodup) ∧
    (∀ uid₁ uid₂ tok₁ tok₂ ca₁ ca₂ (f₁ f₂ : NewInvoiceForm) st k₁ k₂ st₁ st₂ inv₁ inv₂,
      new_invoice_post uid₁ tok₁ ca₁ f₁ st = (NewInvOutcome.redirectCreated k₁, st₁) →
      new_invoice_post uid₂ tok₂ ca₂ f₂ st₁ = (NewInvOutcome.redirectCreated k₂, st₂) →
      st₁ = st ++ [inv₁] → st₂ = st₁ ++ [inv₂] →
      inv₁.view_token ≠ inv₂.view_token) := by
  refine ⟨?_, ?_, ?_⟩
  · intro bytes hlen hbound
    exact ⟨b64urlEncode_length_triple 6 bytes (by omega),
      b64urlEncode_safe bytes hbound⟩
  · intro uid tok ca f st k st' h hnd
    obtain ⟨items, _, _, hst⟩ := new_invoice_post_ok h
    have hfresh := new_invoice_post_token_fresh h
    rw [hst, List.map_append]
    rw [List.nodup_append]
    refine ⟨hnd, by simp, ?_⟩
    intro t ht ht'
    rw [List.mem_map] at ht
    obtain ⟨inv, hinv, hteq⟩ := ht
    simp only [List.map_cons, List.map_nil, List.mem_singleton] at ht'
    subst ht'
    exact hfresh inv hinv hteq
  · intro uid₁ uid₂ tok₁ tok₂ ca₁ ca₂ f₁ f₂ st k₁ k₂ st₁ st₂ inv₁ inv₂
      h1 h2 hst1 hst2
    obtain ⟨items₂, _, _, hst2'⟩ := new_invoice_post_ok h2
    have hfresh₂ := new_invoice_post_token_fresh h2
    have hinv1 : inv₁ ∈ st₁ := by
      rw [hst1]; simp
    have hne1 : inv₁.view_token ≠ tok₂ := hfresh₂ inv₁ hinv1
    have hinv2tok : inv₂.view_token = tok₂ := by
      rw [hst2'] at hst2
      have := List.append_cancel_left hst2
      have h2' : inv₂ = _ := (List.cons.injEq _ _ _ _ ▸ this.symm).1
      rw [h2']
    rw [hinv2tok]
    exact hne1

/-- Witness for C8: a concrete 18-byte token has 24 characters, and two
concrete sequential creations (tokens `"tokA"` then `"tokB"`) produce
invoices with distinct view tokens. -/
theorem c8_view_token_unique_witness :
    (token_urlsafe
      [100, 101, 102, 103, 104, 105, 106, 107, 108,
       109, 110, 111, 112, 113, 114, 115, 116, 117]).length = 24 ∧
    (⟨chars "I", chars "C", [], [], chars "d", chars "d", chars "USD",
        [⟨chars "x", 1, 5⟩], [], [], 5, 1, chars "tokA", chars "t0"⟩ : InvRow).view_token ≠
    (⟨chars "I", chars "C", [], [], chars "d", chars "d", chars "USD",
        [⟨chars "x", 1, 5⟩], [], [], 5, 1, chars "tokB", chars "t0"⟩ : InvRow).view_token := by
  constructor
  · exact (c8_view_token_unique.1
      [100, 101, 102, 103, 104, 105, 106, 107, 108,
       109, 110, 111, 112, 113, 114, 115, 116, 117] (by decide) (by decide)).1
  · exact c8_view_token_unique.2.2 1 1 (chars "tokA") (chars "tokB")
      (chars "t0") (chars "t0")
      ⟨chars "I", chars "C", [], [], chars "d", chars "d", [], chars "x 5", [], []⟩
      ⟨chars "I", chars "C", [], [], chars "d", chars "d", [], chars "x 5", [], []⟩
      [] 0 1
      [⟨chars "I", chars "C", [], [], chars "d", chars "d", chars "USD",
        [⟨chars "x", 1, 5⟩], [], [], 5, 1, chars "tokA", chars "t0"⟩]
      [⟨chars "I", chars "C", [], [], chars "d", chars "d", chars "USD",
        [⟨chars "x", 1, 5⟩], [], [], 5, 1, chars "tokA", chars "t0"⟩,
       ⟨chars "I", chars "C", [], [], chars "d", chars "d", chars "USD",
        [⟨chars "x", 1, 5⟩], [], [], 5, 1, chars "tokB", chars "t0"⟩]
      ⟨chars "I", chars "C", [], [], chars "d", chars "d", chars "USD",
        [⟨chars "x", 1, 5⟩], [], [], 5, 1, chars "tokA", chars "t0"⟩
      ⟨chars "I", chars "C", [], [], chars "d", chars "d", chars "USD",
        [⟨chars "x", 1, 5⟩], [], [], 5, 1, chars "tokB", chars "t0"⟩
      (by decide) (by decide) (by decide) (by decide)

/-! ## C9: validation errors are HTTP 200 -/

/-- **C9.**  Each ValidationError outcome is returned as an inline error page
with HTTP status 200, not a 4xx: missing required invoice fields and an
empty item list in the `/new` POST handler, and the owner-setup password
policy violation, all return their error page bodies with status 200 and
leave the store unchanged. -/
theorem c9_validation_errors_http_200 :
    (∀ uid tok ca (f : NewInvoiceForm) st,
      ((pyStrip f.invoice_number).isEmpty || (pyStrip f.client_name).isEmpty
        || (pyStrip f.issue_date).isEmpty || (pyStrip f.due_date).isEmpty) = true →
      new_invoice_post uid tok ca f st = (NewInvOutcome.missingFieldsPage, st) ∧
      newInvStatus NewInvOutcome.missingFieldsPage = 200) ∧
    (∀ uid tok ca (f : NewInvoiceForm) st e,
      ((pyStrip f.invoice_number).isEmpty || (pyStrip f.client_name).isEmpty
        || (pyStrip f.issue_date).isEmpty || (pyStrip f.due_date).isEmpty) = false →
      parse_items f.items_raw = Except.error e →
      new_invoice_post uid tok ca f st = (NewInvOutcome.itemsErrorPage e, st) ∧
      newInvStatus (NewInvOutcome.itemsErrorPage e) = 200) ∧
    (∀ cfg (hash : List Char → List Char) (f : SetupForm) users,
      any_owner_exists users = false → f.setup_key = cfg →
      ((pyStrip f.username).length < 3 ∨ f.password.length < 6 ∨
        f.password ≠ f.password2) →
      owner_setup cfg hash Method.POST f users = (SetupResp.badInput, users) ∧
      setupStatus SetupResp.badInput = 200) := by
  refine ⟨?_, ?_, ?_⟩
  · intro uid tok ca f st hmiss
    refine ⟨?_, rfl⟩
    unfold new_invoice_post
    dsimp only
    rw [if_pos hmiss]
  · intro uid tok ca f st e hpresent herr
    refine ⟨?_, rfl⟩
    unfold new_invoice_post
    dsimp only
    rw [if_neg (by simp [hpresent]), herr]
  · intro cfg hash f users hno hkey hviol
    refine ⟨?_, rfl⟩
    unfold owner_setup
    rw [if_neg (by simp [hno])]
    dsimp only
    rw [if_neg (fun hne => hne hkey)]
    rw [if_pos ?_]
    rcases hviol with h | h | h
    · simp [h]
    · simp [h]
    · simp [h]

/-- Witness for C9: a `/new` POST with a blank invoice number, one with all
required fields but blank item text, and an owner-setup POST with a short
password, all return their error page with status 200. -/
theorem c9_validation_errors_http_200_witness :
    (new_invoice_post 1 (chars "tokC") (chars "t0")
      ⟨chars "  ", chars "C", [], [], chars "d", chars "d", [], chars "x 5", [], []⟩ []
      = (NewInvOutcome.missingFieldsPage, []) ∧
      newInvStatus NewInvOutcome.missingFieldsPage = 200) ∧
    (new_invoice_post 1 (chars "tokC") (chars "t0")
      ⟨chars "I", chars "C", [], [], chars "d", chars "d", [], chars " ", [], []⟩ []
      = (NewInvOutcome.itemsErrorPage (chars "Add at least 1 item line."), []) ∧
      newInvStatus (NewInvOutcome.itemsErrorPage (chars "Add at least 1 item line.")) = 200) ∧
    (owner_setup (chars "KEY") id Method.POST
      ⟨chars "KEY", chars "alice", chars "abc", chars "abc"⟩ []
      = (SetupResp.badInput, []) ∧ setupStatus SetupResp.badInput = 200) := by
  refine ⟨?_, ?_, ?_⟩
  · exact c9_validation_errors_http_200.1 1 (chars "tokC") (chars "t0")
      ⟨chars "  ", chars "C", [], [], chars "d", chars "d", [], chars "x 5", [], []⟩ []
      (by decide)
  · exact c9_validation_errors_http_200.2.1 1 (chars "tokC") (chars "t0")
      ⟨chars "I", chars "C", [], [], chars "d", chars "d", [], chars " ", [], []⟩ []
      (chars "Add at least 1 item line.") (by decide) (by decide)
  · exact c9_validation_errors_http_200.2.2 (chars "KEY") id
      ⟨chars "KEY", chars "alice", chars "abc", chars "abc"⟩ []
      (by decide) (by decide) (Or.inr (Or.inl (by decide)))

/-! ## C10: negative prices flow through to the total -/

/-- **C10.**  The numeric pattern accepts a leading sign and the sign
survives parsing: the line `"Refund -120"` parses to unit price `-120.00`
(description `"Refund"`), and an invoice created from that single line
stores the negative total `-120.00`. -/
theorem c10_negative_price_negative_total :
    parse_items (chars "Refund -120") =
      Except.ok [⟨chars "Refund", 1, -120⟩] ∧
    (new_invoice_post 1 (chars "tokN") (chars "t0")
      ⟨chars "INV-2", chars "Client", [], [], chars "2026-01-01", chars "2026-01-15",
       chars "USD", chars "Refund -120", [], []⟩ []).1
      = NewInvOutcome.redirectCreated 0 ∧
    ((new_invoice_post 1 (chars "tokN") (chars "t0")
      ⟨chars "INV-2", chars "Client", [], [], chars "2026-01-01", chars "2026-01-15",
       chars "USD", chars "Refund -120", [], []⟩ []).2.map InvRow.total_amount)
      = [-120] ∧
    (-120 : ℚ) < 0 := by decide

end InvoiceApp
